import Mathlib

/-!
Verification of the FBAS reward-distributor ranking engine.

The Rust sources are embedded shallowly: quorum sets become a pair of mutual
inductive trees (`QuorumSet` with its child list `QSList`, isomorphic to the
source's `Vec<QuorumSet>` field), bitsets become `Finset ℕ`, big integers
become `ℕ`/`ℤ`, and `f64` scores are idealised as `ℚ` except where IEEE
special values are the point of the claim, in which case the small `FP` type
(finite / ±infinity / NaN) models exactly the operations the code uses.
-/

namespace FRD

/-- Truncation toward zero of a rational, as `f64::trunc` behaves on exact values. -/
def ratTrunc (q : ℚ) : ℤ := if 0 ≤ q then ⌊q⌋ else ⌈q⌉

/-- Embedding of `round_to_three_places` from `src/rank/util.rs`:
`f64::trunc(n * 1000.0) / 1000.0`. -/
def round_to_three_places (q : ℚ) : ℚ := (ratTrunc (q * 1000) : ℚ) / 1000

/-- Modelled from the spec: round-half-to-even at three decimal places, the
rounding the spec mandates for all emitted Score and Reward values
(design note on rounding policy).  No implementation of it exists in `src/`. -/
def spec_round_half_to_even (q : ℚ) : ℚ :=
  let y : ℚ := q * 1000
  let f : ℤ := ⌊y⌋
  let r : ℚ := y - f
  let n : ℤ :=
    if r < 1/2 then f
    else if 1/2 < r then f + 1
    else if Even f then f else f + 1
  (n : ℚ) / 1000

mutual
/-- A quorum set as in `fbas_analyzer`: an integer threshold, a list of direct
validator node ids, and a list of inner quorum sets (`QSList` stands for the
source's `Vec<QuorumSet>` field). -/
inductive QuorumSet : Type where
  | node (threshold : Nat) (validators : List Nat) (innerQuorumSets : QSList)

/-- A list of quorum sets, mutually defined with `QuorumSet`. -/
inductive QSList : Type where
  | nil
  | cons (head : QuorumSet) (tail : QSList)
end

/-- The threshold of a quorum set. -/
def QuorumSet.threshold : QuorumSet → ℕ
  | .node t _ _ => t

/-- The direct validators of a quorum set. -/
def QuorumSet.validators : QuorumSet → List ℕ
  | .node _ vs _ => vs

/-- The inner quorum sets of a quorum set. -/
def QuorumSet.innerQuorumSets : QuorumSet → QSList
  | .node _ _ inners => inners

/-- The length of a `QSList` (number of inner quorum sets). -/
def QSList.length : QSList → ℕ
  | .nil => 0
  | .cons _ rest => rest.length + 1

/-- Embedding of `QuorumSet::new_empty()`: threshold 0, no validators, no inner sets. -/
def emptyQuorumSet : QuorumSet := .node 0 [] .nil

mutual
/-- Structural equality test on quorum sets (the source derives `Eq`/`Hash`). -/
def QuorumSet.beq : QuorumSet → QuorumSet → Bool
  | .node t₁ v₁ i₁, .node t₂ v₂ i₂ => t₁ == t₂ && v₁ == v₂ && QSList.beqList i₁ i₂

/-- Structural equality test on quorum-set lists. -/
def QSList.beqList : QSList → QSList → Bool
  | .nil, .nil => true
  | .cons a as, .cons b bs => QuorumSet.beq a b && QSList.beqList as bs
  | _, _ => false
end

mutual
theorem QuorumSet.beq_iff : ∀ a b : QuorumSet, QuorumSet.beq a b = true ↔ a = b
  | .node t₁ v₁ i₁, .node t₂ v₂ i₂ => by
      simp only [QuorumSet.beq, Bool.and_eq_true, beq_iff_eq, QSList.beqList_iff,
        QuorumSet.node.injEq]
      tauto

theorem QSList.beqList_iff : ∀ a b : QSList, QSList.beqList a b = true ↔ a = b
  | .nil, .nil => by simp [QSList.beqList]
  | .nil, .cons _ _ => by simp [QSList.beqList]
  | .cons _ _, .nil => by simp [QSList.beqList]
  | .cons a as, .cons b bs => by
      simp only [QSList.beqList, Bool.and_eq_true, QuorumSet.beq_iff, QSList.beqList_iff,
        QSList.cons.injEq]
end

instance : DecidableEq QuorumSet :=
  fun a b => decidable_of_iff _ (QuorumSet.beq_iff a b)

instance : DecidableEq QSList :=
  fun a b => decidable_of_iff _ (QSList.beqList_iff a b)

mutual
/-- Embedding of `quorum_set.contained_nodes()` from `fbas_analyzer`: the set of
node ids appearing anywhere in the quorum set tree (a bitset in the source,
hence deduplicated). -/
def QuorumSet.containedNodes : QuorumSet → Finset ℕ
  | .node _ vs inners => vs.toFinset ∪ QSList.containedNodesList inners

/-- Union of the contained nodes of a list of quorum sets. -/
def QSList.containedNodesList : QSList → Finset ℕ
  | .nil => ∅
  | .cons q rest => q.containedNodes ∪ QSList.containedNodesList rest
end

mutual
/-- Embedding of `fbas_analyzer`'s quorum-slice test (spec §3, "satisfied"):
at least `threshold` of the direct validators plus satisfied inner quorum sets
are present in `S`. -/
def QuorumSet.isSlice (S : Finset ℕ) : QuorumSet → Bool
  | .node t vs inners =>
      decide (t ≤ (vs.filter (fun v => decide (v ∈ S))).length
        + QSList.countSatisfied S inners)

/-- Number of quorum sets in the list satisfied by `S`. -/
def QSList.countSatisfied (S : Finset ℕ) : QSList → ℕ
  | .nil => 0
  | .cons q rest => (if QuorumSet.isSlice S q then 1 else 0) + QSList.countSatisfied S rest
end

/-- An FBAS: the quorum set of node `v` is the `v`-th entry (spec §3, a dense
array from NodeId to QuorumSet as produced by the external loader). -/
def Fbas : Type := List QuorumSet

/-- The quorum set a node declares, `fbas.get_quorum_set(v)` with the source's
`new_empty` fallback for out-of-range ids. -/
def Fbas.qsetOf (fbas : Fbas) (v : ℕ) : QuorumSet :=
  List.getD fbas v emptyQuorumSet

/-- The number of nodes, `fbas.all_nodes().len()`. -/
def Fbas.size (fbas : Fbas) : ℕ := List.length fbas

/-- Modelled from the spec: a quorum of the FBAS (glossary; the external
`fbas_analyzer` requires quorums to be non-empty sets of existing nodes each
of whose quorum sets is satisfied by the set). -/
def isQuorum (fbas : Fbas) (Q : Finset ℕ) : Prop :=
  Q.Nonempty ∧ ∀ v ∈ Q, v < fbas.size ∧ (fbas.qsetOf v).isSlice Q = true

instance (fbas : Fbas) (Q : Finset ℕ) : Decidable (isQuorum fbas Q) := by
  unfold isQuorum; infer_instance

/-- Modelled from the spec: `contains_quorum(S, fbas)` of the external library
(glossary, "winning coalition": a coalition containing a quorum). -/
def containsQuorum (fbas : Fbas) (S : Finset ℕ) : Prop :=
  ∃ Q ∈ S.powerset, isQuorum fbas Q

instance (fbas : Fbas) (S : Finset ℕ) : Decidable (containsQuorum fbas S) := by
  unfold containsQuorum; infer_instance

/-- Modelled from the spec: a minimal quorum (glossary: a quorum none of whose
proper subsets is a quorum). -/
def minimalQuorum (fbas : Fbas) (Q : Finset ℕ) : Prop :=
  isQuorum fbas Q ∧ ∀ P ∈ Q.powerset, P ≠ Q → ¬ isQuorum fbas P

instance (fbas : Fbas) (Q : Finset ℕ) : Decidable (minimalQuorum fbas Q) := by
  unfold minimalQuorum; infer_instance

/-- Modelled from the spec: `find_minimal_quorums(fbas)` of the external
library, as the set of all minimal quorums. -/
def minimalQuorums (fbas : Fbas) : Finset (Finset ℕ) :=
  (Finset.range fbas.size).powerset.filter (fun Q => minimalQuorum fbas Q)

/-- Modelled from the spec: the top tier, `involved_nodes(find_minimal_quorums(fbas))`,
the union of all nodes appearing in any minimal quorum (spec §4.C). -/
def topTier (fbas : Fbas) : Finset ℕ :=
  (minimalQuorums fbas).biUnion id

/-- Modelled from the spec: `all_intersect(find_minimal_quorums(fbas))`, the
check step 1 of the exact engine performs (spec §4.D). -/
def allIntersectMinQuorums (fbas : Fbas) : Prop :=
  ∀ Q₁ ∈ minimalQuorums fbas, ∀ Q₂ ∈ minimalQuorums fbas, (Q₁ ∩ Q₂).Nonempty

instance (fbas : Fbas) : Decidable (allIntersectMinQuorums fbas) := by
  unfold allIntersectMinQuorums; infer_instance

/-- Quorum intersection (spec glossary): every pair of quorums shares a node. -/
def quorumIntersection (fbas : Fbas) : Prop :=
  ∀ Q₁ Q₂ : Finset ℕ, isQuorum fbas Q₁ → isQuorum fbas Q₂ → (Q₁ ∩ Q₂).Nonempty

/-- Every quorum is a set of node ids of the FBAS. -/
theorem quorum_subset_range {fbas : Fbas} {Q : Finset ℕ} (h : isQuorum fbas Q) :
    Q ⊆ Finset.range fbas.size := by
  intro v hv
  exact Finset.mem_range.mpr ((h.2 v hv).1)

/-- Quorum intersection restricted to node-id-ranged sets, a decidable
equivalent of `quorumIntersection`. -/
def quorumIntersectionB (fbas : Fbas) : Prop :=
  ∀ Q₁ ∈ (Finset.range fbas.size).powerset, ∀ Q₂ ∈ (Finset.range fbas.size).powerset,
    isQuorum fbas Q₁ → isQuorum fbas Q₂ → (Q₁ ∩ Q₂).Nonempty

instance (fbas : Fbas) : Decidable (quorumIntersectionB fbas) := by
  unfold quorumIntersectionB; infer_instance

theorem quorumIntersectionB_iff (fbas : Fbas) :
    quorumIntersectionB fbas ↔ quorumIntersection fbas := by
  constructor
  · intro h Q₁ Q₂ h₁ h₂
    exact h Q₁ (Finset.mem_powerset.mpr (quorum_subset_range h₁))
      Q₂ (Finset.mem_powerset.mpr (quorum_subset_range h₂)) h₁ h₂
  · intro h Q₁ _ Q₂ _ h₁ h₂
    exact h Q₁ Q₂ h₁ h₂

/-! ## Exact power-index engine (`src/rank/exact_shapley_shubik.rs`) -/

/-- Embedding of `n_factorial` from `src/rank/util.rs`: starts from 1,
multiplies by `i` for `i in 2..n`, then multiplies by `n` (returns 1 for 0). -/
def n_factorial (n : ℕ) : ℕ :=
  if n = 0 then 1 else (List.range' 2 (n - 2)).foldl (· * ·) 1 * n

/-- Embedding of `value_added_to_one_coalition`: factorials as big integers,
reduction by their GCD, and the quotient of the reduced numerator and
denominator (the source's `f64` quotient idealised as the exact `ℚ` quotient). -/
def value_added_to_one_coalition (coalition : Finset ℕ) (numPlayers : ℕ)
    (factTotal : ℕ) : ℚ :=
  let setSize := coalition.card
  let dividend := n_factorial (setSize - 1) * n_factorial (numPlayers - setSize)
  let g := Nat.gcd dividend factTotal
  ((dividend / g : ℕ) : ℚ) / ((factTotal / g : ℕ) : ℚ)

/-- Embedding of `find_winning_coalitions`: the subsets of the top tier that
contain a quorum. -/
def find_winning_coalitions (fbas : Fbas) (tt : Finset ℕ) : Finset (Finset ℕ) :=
  tt.powerset.filter (fun S => containsQuorum fbas S)

/-- Embedding of `player_is_critical`: winning coalitions containing the player
that stop winning when the player is removed. -/
def player_is_critical (p : ℕ) (winning : Finset (Finset ℕ)) : Finset (Finset ℕ) :=
  winning.filter (fun w => p ∈ w ∧ w.erase p ∉ winning)

/-- The sum a player's score is rounded from: one `value_added_to_one_coalition`
term per critical coalition. -/
def player_power_index_unrounded (fbas : Fbas) (tt : Finset ℕ) (p : ℕ) : ℚ :=
  ∑ w in player_is_critical p (find_winning_coalitions fbas tt),
    value_added_to_one_coalition w tt.card (n_factorial tt.card)

/-- Embedding of `computer_power_index_for_player` (source spelling): the
rounded sum of the critical-coalition contributions. -/
def computer_power_index_for_player (fbas : Fbas) (tt : Finset ℕ) (p : ℕ) : ℚ :=
  round_to_three_places (player_power_index_unrounded fbas tt p)

/-- The error kind a failed quorum-intersection check raises (spec §7). -/
inductive RankError : Type where
  | quorumIntersectionMissing
deriving DecidableEq

/-- Modelled from the spec: the two-argument `get_involved_nodes(fbas, qi_check)`
the exact engine calls is not under `src/` (only the one-argument variant in
`src/types/game.rs` is); spec §4.D step 1: if `qi_check`, assert
`all_intersect(find_minimal_quorums(fbas))` and fail with
QuorumIntersectionMissing otherwise, then return the computed top tier. -/
def get_involved_nodes (fbas : Fbas) (qiCheck : Bool) : Except RankError (Finset ℕ) :=
  if qiCheck = true ∧ ¬ allIntersectMinQuorums fbas then .error .quorumIntersectionMissing
  else .ok (topTier fbas)

/-- Embedding of `compute_exact_ss_power_index_for_game`: when the game was
initialised with a top tier, it is used as is (the source comments that the
quorum-intersection check is assumed to have been done already); otherwise the
top tier comes from `get_involved_nodes` with the `qi_check` flag. -/
def compute_exact_ss_power_index_for_game (fbas : Fbas) (players : List ℕ)
    (topTierOpt : Option (Finset ℕ)) (qiCheck : Bool) : Except RankError (List ℚ) :=
  match topTierOpt with
  | some tt => .ok (players.map (fun p => computer_power_index_for_player fbas tt p))
  | none =>
      match get_involved_nodes fbas qiCheck with
      | .error e => .error e
      | .ok tt => .ok (players.map (fun p => computer_power_index_for_player fbas tt p))

/-- The player list of a game built over all nodes, `(0..fbas.all_nodes().len())`
deduplicated (already duplicate-free). -/
def gamePlayers (fbas : Fbas) : List ℕ := List.range fbas.size

/-! ### Factorial lemmas (claim C6) -/

theorem range2_foldl_mul (m : ℕ) :
    (List.range' 2 m).foldl (· * ·) 1 = Nat.factorial (m + 1) := by
  induction m with
  | zero => simp [Nat.factorial]
  | succ k ih =>
      rw [List.range'_concat, List.foldl_append]
      simp only [List.foldl_cons, List.foldl_nil, ih]
      rw [Nat.factorial_succ (k + 1)]
      ring

theorem n_factorial_eq_factorial (n : ℕ) : n_factorial n = Nat.factorial n := by
  rcases n with _ | k
  · simp [n_factorial]
  · rcases k with _ | j
    · simp [n_factorial]
    · have h2 : j + 1 + 1 - 2 = j := by omega
      rw [n_factorial, if_neg (Nat.succ_ne_zero _), h2, range2_foldl_mul,
        Nat.factorial_succ (j + 1)]
      ring

theorem value_added_eq_exact_rational (w : Finset ℕ) (n : ℕ) :
    value_added_to_one_coalition w n (n_factorial n)
      = ((Nat.factorial (w.card - 1) * Nat.factorial (n - w.card) : ℕ) : ℚ)
        / ((Nat.factorial n : ℕ) : ℚ) := by
  unfold value_added_to_one_coalition
  simp only [n_factorial_eq_factorial]
  set d : ℕ := Nat.factorial (w.card - 1) * Nat.factorial (n - w.card) with hd
  set f : ℕ := Nat.factorial n with hf
  have hfpos : 0 < f := Nat.factorial_pos n
  have hgpos : 0 < Nat.gcd d f := Nat.gcd_pos_of_pos_right d hfpos
  have hgd : Nat.gcd d f ∣ d := Nat.gcd_dvd_left d f
  have hgf : Nat.gcd d f ∣ f := Nat.gcd_dvd_right d f
  have hg0 : ((Nat.gcd d f : ℕ) : ℚ) ≠ 0 := by
    exact_mod_cast hgpos.ne.symm
  have hcd : ((d / Nat.gcd d f : ℕ) : ℚ) = (d : ℚ) / (Nat.gcd d f : ℚ) :=
    Nat.cast_div hgd hg0
  have hcf : ((f / Nat.gcd d f : ℕ) : ℚ) = (f : ℚ) / (Nat.gcd d f : ℚ) :=
    Nat.cast_div hgf hg0
  have hf0 : ((f : ℕ) : ℚ) ≠ 0 := by exact_mod_cast hfpos.ne.symm
  rw [hcd, hcf, div_div_div_cancel_right₀]
  exact hg0

theorem value_added_nonneg (w : Finset ℕ) (n m : ℕ) :
    0 ≤ value_added_to_one_coalition w n m := by
  unfold value_added_to_one_coalition
  positivity

/-! ### Shapley–Shubik efficiency (claim C1) -/

/-- The exact Shapley–Shubik contribution of one critical coalition of size `k`
in an `n`-player game: `(k−1)!·(n−k)! / n!`. -/
def ssTerm (n k : ℕ) : ℚ :=
  ((Nat.factorial (k - 1) * Nat.factorial (n - k) : ℕ) : ℚ)
    / ((Nat.factorial n : ℕ) : ℚ)

theorem value_added_eq_ssTerm (w : Finset ℕ) (n : ℕ) :
    value_added_to_one_coalition w n (n_factorial n) = ssTerm n w.card :=
  value_added_eq_exact_rational w n

theorem ssTerm_mul_card {n k : ℕ} (h1 : 1 ≤ k) :
    (k : ℚ) * ssTerm n k
      = ((Nat.factorial k * Nat.factorial (n - k) : ℕ) : ℚ)
        / ((Nat.factorial n : ℕ) : ℚ) := by
  have hnat : k * (Nat.factorial (k - 1) * Nat.factorial (n - k))
      = Nat.factorial k * Nat.factorial (n - k) := by
    rw [← mul_assoc, Nat.mul_factorial_pred h1]
  unfold ssTerm
  rw [mul_div_assoc']
  congr 1
  exact_mod_cast hnat

theorem ssTerm_mul_rest {n k : ℕ} (h : k < n) :
    ((n - k : ℕ) : ℚ) * ssTerm n (k + 1)
      = ((Nat.factorial k * Nat.factorial (n - k) : ℕ) : ℚ)
        / ((Nat.factorial n : ℕ) : ℚ) := by
  have hnat : (n - k) * (Nat.factorial k * Nat.factorial (n - k - 1))
      = Nat.factorial k * Nat.factorial (n - k) := by
    rw [mul_left_comm, Nat.mul_factorial_pred (by omega : 0 < n - k)]
  unfold ssTerm
  have h2 : n - (k + 1) = n - k - 1 := by omega
  have h3 : k + 1 - 1 = k := by omega
  rw [h2, h3, mul_div_assoc']
  congr 1
  exact_mod_cast hnat

theorem ssTerm_grand {n : ℕ} (h : 1 ≤ n) : (n : ℚ) * ssTerm n n = 1 := by
  have hnat : n * (Nat.factorial (n - 1) * Nat.factorial (n - n)) = Nat.factorial n := by
    rw [Nat.sub_self, Nat.factorial_zero, mul_one, Nat.mul_factorial_pred h]
  unfold ssTerm
  rw [mul_div_assoc']
  rw [show ((n : ℚ) * ((Nat.factorial (n-1) * Nat.factorial (n-n) : ℕ) : ℚ))
      = ((Nat.factorial n : ℕ) : ℚ) by exact_mod_cast hnat]
  exact div_self (by exact_mod_cast (Nat.factorial_pos n).ne.symm)

theorem ssTerm_nonneg (n k : ℕ) : 0 ≤ ssTerm n k := by
  unfold ssTerm
  positivity

/-! ### Structure of quorums and the top tier -/

theorem containsQuorum_mono {fbas : Fbas} {S T : Finset ℕ} (hsub : S ⊆ T)
    (h : containsQuorum fbas S) : containsQuorum fbas T := by
  obtain ⟨Q, hQ, hquorum⟩ := h
  exact ⟨Q, Finset.mem_powerset.mpr ((Finset.mem_powerset.mp hQ).trans hsub), hquorum⟩

theorem not_containsQuorum_empty (fbas : Fbas) : ¬ containsQuorum fbas ∅ := by
  rintro ⟨Q, hQ, hne, -⟩
  rw [Finset.mem_powerset, Finset.subset_empty] at hQ
  exact Finset.not_nonempty_empty (hQ ▸ hne)

theorem exists_minimalQuorum_subset {fbas : Fbas} (Q0 : Finset ℕ) :
    isQuorum fbas Q0 → ∃ M, M ⊆ Q0 ∧ minimalQuorum fbas M := by
  induction Q0 using Finset.strongInductionOn with
  | _ Q ih =>
    intro hQ
    by_cases hmin : ∀ P ∈ Q.powerset, P ≠ Q → ¬ isQuorum fbas P
    · exact ⟨Q, Finset.Subset.refl Q, hQ, hmin⟩
    · push_neg at hmin
      obtain ⟨P, hP, hne, hPq⟩ := hmin
      have hPsub : P ⊂ Q := (Finset.mem_powerset.mp hP).ssubset_of_ne hne
      obtain ⟨M, hMsub, hMmin⟩ := ih P hPsub hPq
      exact ⟨M, hMsub.trans hPsub.subset, hMmin⟩

theorem minimalQuorum_mem_minimalQuorums {fbas : Fbas} {M : Finset ℕ}
    (h : minimalQuorum fbas M) : M ∈ minimalQuorums fbas := by
  unfold minimalQuorums
  exact Finset.mem_filter.mpr
    ⟨Finset.mem_powerset.mpr (quorum_subset_range h.1), h⟩

theorem minimalQuorum_subset_topTier {fbas : Fbas} {M : Finset ℕ}
    (h : minimalQuorum fbas M) : M ⊆ topTier fbas := by
  intro x hx
  exact Finset.mem_biUnion.mpr ⟨M, minimalQuorum_mem_minimalQuorums h, hx⟩

theorem topTier_subset_range (fbas : Fbas) :
    topTier fbas ⊆ Finset.range fbas.size := by
  intro x hx
  obtain ⟨M, hM, hxM⟩ := Finset.mem_biUnion.mp hx
  exact Finset.mem_powerset.mp (Finset.mem_filter.mp hM).1 hxM

theorem containsQuorum_topTier {fbas : Fbas} (hex : ∃ Q, isQuorum fbas Q) :
    containsQuorum fbas (topTier fbas) := by
  obtain ⟨Q, hQ⟩ := hex
  obtain ⟨M, -, hMmin⟩ := exists_minimalQuorum_subset Q hQ
  exact ⟨M, Finset.mem_powerset.mpr (minimalQuorum_subset_topTier hMmin), hMmin.1⟩

/-- Efficiency of the Shapley–Shubik index for a monotone simple game whose
grand coalition wins and whose empty coalition loses: the per-player sums of
critical-coalition contributions add up to 1. -/
theorem shapley_sum_eq_one (tt : Finset ℕ) (win : Finset ℕ → Prop) [DecidablePred win]
    (hmono : ∀ S T : Finset ℕ, S ⊆ T → T ⊆ tt → win S → win T)
    (hempty : ¬ win (∅ : Finset ℕ)) (hfull : win tt) :
    ∑ p in tt, ∑ w in player_is_critical p (tt.powerset.filter win),
      ssTerm tt.card w.card = 1 := by
  classical
  set n := tt.card with hn
  have hn1 : 1 ≤ n := by
    rcases Finset.eq_empty_or_nonempty tt with h | h
    · exact absurd (h ▸ hfull) hempty
    · rw [hn]
      exact Finset.card_pos.mpr h
  set v : Finset ℕ → ℚ := fun S => if win S then 1 else 0 with hv
  have stepA : ∀ p ∈ tt,
      ∑ w in player_is_critical p (tt.powerset.filter win), ssTerm n w.card
        = ∑ S in tt.powerset,
            (if p ∈ S then ssTerm n S.card * (v S - v (S.erase p)) else 0) := by
    intro p _
    have hcrit : player_is_critical p (tt.powerset.filter win)
        = tt.powerset.filter (fun S => win S ∧ p ∈ S ∧ ¬ win (S.erase p)) := by
      ext S
      simp only [player_is_critical, Finset.mem_filter, Finset.mem_powerset]
      constructor
      · rintro ⟨⟨hsub, hwin⟩, hpS, herase⟩
        exact ⟨hsub, hwin, hpS, fun hwe =>
          herase ⟨(Finset.erase_subset p S).trans hsub, hwe⟩⟩
      · rintro ⟨hsub, hwin, hpS, hnw⟩
        exact ⟨⟨hsub, hwin⟩, hpS, fun hc => hnw hc.2⟩
    rw [hcrit, Finset.sum_filter]
    refine Finset.sum_congr rfl ?_
    intro S hS
    have hsub : S ⊆ tt := Finset.mem_powerset.mp hS
    by_cases hpS : p ∈ S
    · by_cases hw : win S
      · by_cases he : win (S.erase p)
        · simp [hv, hpS, hw, he]
        · simp [hv, hpS, hw, he]
      · have he : ¬ win (S.erase p) := fun hc =>
          hw (hmono (S.erase p) S (Finset.erase_subset p S) hsub hc)
        simp [hv, hpS, hw, he]
    · simp [hpS]
  rw [Finset.sum_congr rfl stepA, Finset.sum_comm]
  have stepC : ∀ S ∈ tt.powerset,
      ∑ p in tt, (if p ∈ S then ssTerm n S.card * (v S - v (S.erase p)) else 0)
        = ∑ p in S, ssTerm n S.card * (v S - v (S.erase p)) := by
    intro S hS
    rw [Finset.sum_ite_mem]
    congr 1
    exact Finset.inter_eq_right.mpr (Finset.mem_powerset.mp hS)
  rw [Finset.sum_congr rfl stepC]
  have split : ∑ S in tt.powerset, ∑ p in S, ssTerm n S.card * (v S - v (S.erase p))
      = (∑ S in tt.powerset, (S.card : ℚ) * ssTerm n S.card * v S)
        - ∑ S in tt.powerset, ∑ p in S, ssTerm n S.card * v (S.erase p) := by
    rw [← Finset.sum_sub_distrib]
    refine Finset.sum_congr rfl fun S _ => ?_
    simp_rw [mul_sub]
    rw [Finset.sum_sub_distrib, Finset.sum_const, nsmul_eq_mul]
    ring
  have reindex : ∑ S in tt.powerset, ∑ p in S, ssTerm n S.card * v (S.erase p)
      = ∑ T in tt.powerset, ((n - T.card : ℕ) : ℚ) * ssTerm n (T.card + 1) * v T := by
    have h2 : ∀ T ∈ tt.powerset,
        ((n - T.card : ℕ) : ℚ) * ssTerm n (T.card + 1) * v T
          = ∑ p in tt \ T, ssTerm n (T.card + 1) * v T := by
      intro T hT
      rw [Finset.sum_const, nsmul_eq_mul,
        Finset.card_sdiff (Finset.mem_powerset.mp hT), ← hn]
      ring
    rw [Finset.sum_congr rfl h2, Finset.sum_sigma', Finset.sum_sigma']
    refine Finset.sum_nbij'
      (fun x => (⟨x.1.erase x.2, x.2⟩ : (_ : Finset ℕ) × ℕ))
      (fun x => (⟨insert x.2 x.1, x.2⟩ : (_ : Finset ℕ) × ℕ)) ?_ ?_ ?_ ?_ ?_
    · rintro ⟨S, p⟩ hx
      rw [Finset.mem_sigma] at hx ⊢
      obtain ⟨hS, hp⟩ := hx
      refine ⟨Finset.mem_powerset.mpr
        ((Finset.erase_subset p S).trans (Finset.mem_powerset.mp hS)), ?_⟩
      exact Finset.mem_sdiff.mpr ⟨Finset.mem_powerset.mp hS hp, Finset.not_mem_erase p S⟩
    · rintro ⟨T, p⟩ hx
      rw [Finset.mem_sigma] at hx ⊢
      obtain ⟨hT, hp⟩ := hx
      obtain ⟨hptt, hpT⟩ := Finset.mem_sdiff.mp hp
      refine ⟨Finset.mem_powerset.mpr ?_, Finset.mem_insert_self p T⟩
      exact Finset.insert_subset hptt (Finset.mem_powerset.mp hT)
    · rintro ⟨S, p⟩ hx
      rw [Finset.mem_sigma] at hx
      exact congrArg (fun t => ((⟨t, p⟩ : (_ : Finset ℕ) × ℕ)))
        (Finset.insert_erase hx.2)
    · rintro ⟨T, p⟩ hx
      rw [Finset.mem_sigma] at hx
      have hpT : p ∉ T := (Finset.mem_sdiff.mp hx.2).2
      exact congrArg (fun t => ((⟨t, p⟩ : (_ : Finset ℕ) × ℕ)))
        (Finset.erase_insert hpT)
    · rintro ⟨S, p⟩ hx
      rw [Finset.mem_sigma] at hx
      have hcard : (S.erase p).card + 1 = S.card := Finset.card_erase_add_one hx.2
      simp only [hcard]
  rw [split, reindex, ← Finset.sum_sub_distrib]
  have final : ∀ S ∈ tt.powerset,
      (S.card : ℚ) * ssTerm n S.card * v S
          - ((n - S.card : ℕ) : ℚ) * ssTerm n (S.card + 1) * v S
        = if S = tt then 1 else 0 := by
    intro S hS
    have hsub := Finset.mem_powerset.mp hS
    by_cases hSt : S = tt
    · subst hSt
      have hvS : v S = 1 := by simp [hv, hfull]
      have h0 : (n - S.card : ℕ) = 0 := by omega
      rw [hvS, h0, if_pos rfl]
      push_cast
      rw [← hn]
      have := ssTerm_grand hn1
      rw [mul_one]
      linarith [this]
    · have hlt : S.card < n := by
        rw [hn]
        exact Finset.card_lt_card (hsub.ssubset_of_ne hSt)
      rcases Nat.eq_zero_or_pos S.card with hc0 | hcpos
      · have hSempty : S = ∅ := Finset.card_eq_zero.mp hc0
        have hvS : v S = 0 := by simp [hv, hSempty, hempty]
        rw [hvS, if_neg hSt]
        ring
      · have e1 := ssTerm_mul_card (n := n) hcpos
        have e2 := ssTerm_mul_rest (n := n) hlt
        have heq : (S.card : ℚ) * ssTerm n S.card
            = ((n - S.card : ℕ) : ℚ) * ssTerm n (S.card + 1) := by rw [e1, e2]
        rw [if_neg hSt, heq]
        ring
  rw [Finset.sum_congr rfl final, Finset.sum_ite_eq' tt.powerset tt (fun _ => (1 : ℚ))]
  simp [Finset.mem_powerset_self]

theorem player_power_index_unrounded_eq_ssTerm (fbas : Fbas) (tt : Finset ℕ) (p : ℕ) :
    player_power_index_unrounded fbas tt p
      = ∑ w in player_is_critical p (find_winning_coalitions fbas tt),
          ssTerm tt.card w.card := by
  unfold player_power_index_unrounded
  exact Finset.sum_congr rfl fun w _ => value_added_eq_ssTerm w tt.card

theorem player_power_index_unrounded_nonneg (fbas : Fbas) (tt : Finset ℕ) (p : ℕ) :
    0 ≤ player_power_index_unrounded fbas tt p := by
  unfold player_power_index_unrounded
  exact Finset.sum_nonneg fun w _ => value_added_nonneg w tt.card (n_factorial tt.card)

theorem round_to_three_places_nonneg {q : ℚ} (h : 0 ≤ q) :
    0 ≤ round_to_three_places q := by
  unfold round_to_three_places ratTrunc
  rw [if_pos (by positivity)]
  have hfl : (0 : ℤ) ≤ ⌊q * 1000⌋ := Int.floor_nonneg.mpr (by positivity)
  have : (0 : ℚ) ≤ (⌊q * 1000⌋ : ℚ) := by exact_mod_cast hfl
  positivity

theorem offTier_critical_empty (fbas : Fbas) (tt : Finset ℕ) {p : ℕ} (hp : p ∉ tt) :
    player_is_critical p (find_winning_coalitions fbas tt) = ∅ := by
  unfold player_is_critical find_winning_coalitions
  ext w
  simp only [Finset.mem_filter, Finset.mem_powerset, Finset.not_mem_empty, iff_false]
  rintro ⟨⟨hsub, -⟩, hpw, -⟩
  exact hp (hsub hpw)

/-! ### Claim C1 -/

/-- A one-node FBAS whose node accepts itself: quorum set `{t=1, validators=[0]}`. -/
def oneNodeFbas : Fbas := [QuorumSet.node 1 [0] .nil]

/-- C1 (amended): for every FBAS that enjoys quorum intersection and has at
least one quorum, every entry of the exact power-index score vector is
non-negative, and the per-player Shapley–Shubik contributions (before the
final three-decimal rounding of each entry) sum to exactly 1. -/
theorem C1_exact_index_nonneg_and_sums_to_one (fbas : Fbas)
    (_hQI : quorumIntersection fbas) (hex : ∃ Q, isQuorum fbas Q) :
    (∀ p : ℕ, 0 ≤ computer_power_index_for_player fbas (topTier fbas) p)
      ∧ ∑ p in Finset.range fbas.size,
          player_power_index_unrounded fbas (topTier fbas) p = 1 := by
  constructor
  · intro p
    exact round_to_three_places_nonneg (player_power_index_unrounded_nonneg _ _ _)
  · rw [← Finset.sum_subset (topTier_subset_range fbas) (fun p _ hp => by
      unfold player_power_index_unrounded
      rw [offTier_critical_empty fbas _ hp, Finset.sum_empty])]
    rw [Finset.sum_congr rfl (fun p _ => player_power_index_unrounded_eq_ssTerm fbas _ p)]
    exact shapley_sum_eq_one (topTier fbas) (containsQuorum fbas)
      (fun S T hst _ h => containsQuorum_mono hst h)
      (not_containsQuorum_empty fbas)
      (containsQuorum_topTier hex)

/-- C1 counterexample: the empty FBAS vacuously enjoys quorum intersection
(it has no quorums at all), yet the per-player Shapley–Shubik contributions of
the exact engine sum to 0 rather than 1. -/
theorem C1_counterexample :
    quorumIntersection ([] : Fbas)
      ∧ (∑ p in Finset.range (Fbas.size ([] : Fbas)),
          player_power_index_unrounded [] (topTier []) p) = 0
      ∧ (0 : ℚ) ≠ 1 := by
  refine ⟨?_, ?_, by norm_num⟩
  · intro Q₁ Q₂ h₁ _
    obtain ⟨v, hv⟩ := h₁.1
    exact absurd (h₁.2 v hv).1 (Nat.not_lt_zero v)
  · simp [Fbas.size]

/-- C1 witness: the one-node FBAS has quorum intersection and a quorum, its
score is non-negative and its contributions sum to 1. -/
theorem C1_witness :
    quorumIntersection oneNodeFbas
      ∧ (0 ≤ computer_power_index_for_player oneNodeFbas (topTier oneNodeFbas) 0
          ∧ ∑ p in Finset.range oneNodeFbas.size,
              player_power_index_unrounded oneNodeFbas (topTier oneNodeFbas) p = 1) := by
  have hqi : quorumIntersection oneNodeFbas :=
    (quorumIntersectionB_iff oneNodeFbas).mp (by decide)
  have hex : ∃ Q, isQuorum oneNodeFbas Q := ⟨{0}, by decide⟩
  exact ⟨hqi, (C1_exact_index_nonneg_and_sums_to_one oneNodeFbas hqi hex).1 0,
    (C1_exact_index_nonneg_and_sums_to_one oneNodeFbas hqi hex).2⟩

/-! ### Claim C3 -/

theorem allIntersectMinQuorums_implies_qi {fbas : Fbas}
    (h : allIntersectMinQuorums fbas) : quorumIntersection fbas := by
  intro Q₁ Q₂ h₁ h₂
  obtain ⟨M₁, hs₁, hm₁⟩ := exists_minimalQuorum_subset Q₁ h₁
  obtain ⟨M₂, hs₂, hm₂⟩ := exists_minimalQuorum_subset Q₂ h₂
  obtain ⟨x, hx⟩ := h M₁ (minimalQuorum_mem_minimalQuorums hm₁)
    M₂ (minimalQuorum_mem_minimalQuorums hm₂)
  exact ⟨x, Finset.mem_inter.mpr
    ⟨hs₁ (Finset.mem_inter.mp hx).1, hs₂ (Finset.mem_inter.mp hx).2⟩⟩

/-- A two-node FBAS with two disjoint one-node quorums `{0}` and `{1}`:
quorum intersection fails. -/
def disjointFbas : Fbas := [QuorumSet.node 1 [0] .nil, QuorumSet.node 1 [1] .nil]

theorem disjointFbas_not_qi : ¬ quorumIntersection disjointFbas := by
  intro h
  obtain ⟨x, hx⟩ := h {0} {1} (by decide) (by decide)
  rw [show ({0} : Finset ℕ) ∩ {1} = ∅ from by decide] at hx
  exact Finset.not_mem_empty x hx

/-- C3 (amended): with `qi_check = true` on an FBAS lacking quorum
intersection, the exact engine fails with QuorumIntersectionMissing when the
top tier is computed internally, but when the top tier is supplied by the
caller the check is skipped and a score vector is returned. -/
theorem C3_qi_check_only_when_top_tier_internal (fbas : Fbas) (players : List ℕ)
    (tt : Finset ℕ) (hqi : ¬ quorumIntersection fbas) :
    compute_exact_ss_power_index_for_game fbas players none true
        = .error .quorumIntersectionMissing
      ∧ compute_exact_ss_power_index_for_game fbas players (some tt) true
        = .ok (players.map (fun p => computer_power_index_for_player fbas tt p)) := by
  constructor
  · unfold compute_exact_ss_power_index_for_game get_involved_nodes
    rw [if_pos ⟨rfl, fun h => hqi (allIntersectMinQuorums_implies_qi h)⟩]
  · rfl

/-- C3 counterexample: on a concrete FBAS without quorum intersection, the
exact engine with `qi_check = true` and a caller-supplied top tier does not
fail: it returns a score vector. -/
theorem C3_counterexample :
    ¬ quorumIntersection disjointFbas
      ∧ (compute_exact_ss_power_index_for_game disjointFbas [0, 1]
          (some {0, 1}) true).isOk = true :=
  ⟨disjointFbas_not_qi, rfl⟩

/-- C3 witness: the internally-computed-top-tier branch of the amended claim
at the concrete two-node FBAS without quorum intersection. -/
theorem C3_witness :
    ¬ quorumIntersection disjointFbas
      ∧ compute_exact_ss_power_index_for_game disjointFbas [0, 1] none true
          = .error .quorumIntersectionMissing :=
  ⟨disjointFbas_not_qi,
    (C3_qi_check_only_when_top_tier_internal disjointFbas [0, 1] ∅
      disjointFbas_not_qi).1⟩

/-! ### Claim C6 -/

/-- C6: `n_factorial` computes the factorial, and for a coalition of size
`k ≥ 1` in a game over `n ≥ k` top-tier players,
`value_added_to_one_coalition` (big-integer factorials, GCD reduction,
quotient of the reduced numerator and denominator) equals the exact rational
`(k−1)!·(n−k)!/n!`. -/
theorem C6_value_added_exact :
    (∀ m : ℕ, n_factorial m = Nat.factorial m)
      ∧ ∀ (w : Finset ℕ) (n : ℕ), 1 ≤ w.card → w.card ≤ n →
          value_added_to_one_coalition w n (n_factorial n)
            = ((Nat.factorial (w.card - 1) * Nat.factorial (n - w.card) : ℕ) : ℚ)
              / ((Nat.factorial n : ℕ) : ℚ) :=
  ⟨n_factorial_eq_factorial, fun w n _ _ => value_added_eq_exact_rational w n⟩

/-- C6 witness: the two-element coalition `{0,1}` in a 3-player game
contributes exactly `1!·1!/3! = 1/6`. -/
theorem C6_witness :
    (1 ≤ ({0, 1} : Finset ℕ).card ∧ ({0, 1} : Finset ℕ).card ≤ 3)
      ∧ value_added_to_one_coalition {0, 1} 3 (n_factorial 3) = 1 / 6 := by
  refine ⟨by decide, ?_⟩
  have hc : ({0, 1} : Finset ℕ).card = 2 := by decide
  rw [C6_value_added_exact.2 {0, 1} 3 (by decide) (by decide), hc]
  norm_num [Nat.factorial]

/-! ### Claim C8 -/

/-- C8: the source rounding truncates toward zero at three decimals; at the
finite input 0.0019 it yields 0.001, while the mandated round-half-to-even
(the nearest multiple of 0.001) yields 0.002. -/
theorem C8_rounding_is_truncation_not_half_even :
    round_to_three_places (19 / 10000) = 1 / 1000
      ∧ spec_round_half_to_even (19 / 10000) = 2 / 1000
      ∧ round_to_three_places (19 / 10000) ≠ spec_round_half_to_even (19 / 10000) := by
  have hfloor : ⌊(19 : ℚ) / 10000 * 1000⌋ = 1 := by
    rw [Int.floor_eq_iff]
    norm_num
  have htrunc : ratTrunc ((19 : ℚ) / 10000 * 1000) = 1 := by
    rw [ratTrunc, if_pos (by norm_num)]
    exact hfloor
  refine ⟨?_, ?_, ?_⟩
  · rw [round_to_three_places, htrunc]
    norm_num
  · rw [spec_round_half_to_even]
    simp only [hfloor]
    norm_num
  · rw [round_to_three_places, htrunc, spec_round_half_to_even]
    simp only [hfloor]
    norm_num

/-! ## Quorum-set inspector weights (`src/rank/util.rs`) -/

/-- Embedding of `qset_weight`: the threshold divided by the number of
transitively contained nodes, `contained_nodes().len()`. -/
def qset_weight (qs : QuorumSet) : ℚ :=
  (qs.threshold : ℚ) / (qs.containedNodes.card : ℚ)

/-- Modelled from the spec: the factor `T/|Q|` as the spec words it, with
`|Q|` the count of direct validators plus inner quorum sets of the current
qset (spec §4.A); written only to compare against the source's `qset_weight`. -/
def spec_qset_weight (qs : QuorumSet) : ℚ :=
  (qs.threshold : ℚ) / ((qs.validators.length + qs.innerQuorumSets.length : ℕ) : ℚ)

/-- Index of the first quorum set in the list whose direct validators include
the node (the `enumerate` scan in `depth_in_inner_sets`). -/
def QSList.firstValidatorIdx (v : ℕ) : QSList → Option ℕ
  | .nil => none
  | .cons q rest =>
      if v ∈ q.validators then some 0
      else (QSList.firstValidatorIdx v rest).map (· + 1)

/-- Embedding of `depth_in_inner_sets` from `src/rank/util.rs`: 1 when the
node is among the inner set's validators; otherwise the depth counter starts
at 1 and the first doubly-inner set whose validators hold the node adds its
index plus 1.  The counter is incremented before the scan, so the function
returns 1 even when the node does not occur at all. -/
def depth_in_inner_sets (inner : QuorumSet) (v : ℕ) : ℕ :=
  if v ∈ inner.validators then 1
  else
    match QSList.firstValidatorIdx v inner.innerQuorumSets with
    | some idx => 1 + (idx + 1)
    | none => 1

/-- Embedding of the scan loop in `nodes_nesting_depth`: the first inner set
with nonzero `depth_in_inner_sets` contributes that depth plus 1. -/
def QSList.nestLoop (v : ℕ) : QSList → ℕ
  | .nil => 0
  | .cons inner rest =>
      if depth_in_inner_sets inner v ≠ 0 then depth_in_inner_sets inner v + 1
      else QSList.nestLoop v rest

/-- Embedding of `nodes_nesting_depth` from `src/rank/util.rs`: 1 when the
node is a direct validator, else the inner-set scan. -/
def nodes_nesting_depth (qs : QuorumSet) (v : ℕ) : ℕ :=
  if v ∈ qs.validators then 1 else QSList.nestLoop v qs.innerQuorumSets

/-- First quorum set in the list whose transitively contained nodes include
the node. -/
def QSList.findContaining (v : ℕ) : QSList → Option QuorumSet
  | .nil => none
  | .cons q rest =>
      if v ∈ q.containedNodes then some q else QSList.findContaining v rest

/-- Embedding of `find_next_quorum_set_containing_node`: the first inner set
containing the node, else the empty quorum set. -/
def find_next_quorum_set_containing_node (qs : QuorumSet) (v : ℕ) : QuorumSet :=
  match QSList.findContaining v qs.innerQuorumSets with
  | some q => q
  | none => emptyQuorumSet

theorem QSList.sizeOf_findContaining {v : ℕ} :
    ∀ (l : QSList) (q : QuorumSet), QSList.findContaining v l = some q →
      sizeOf q < sizeOf l
  | .nil, q, h => by simp [QSList.findContaining] at h
  | .cons head tail, q, h => by
      rw [QSList.findContaining] at h
      by_cases hv : v ∈ head.containedNodes
      · rw [if_pos hv] at h
        cases h
        simp only [QSList.cons.sizeOf_spec]
        omega
      · rw [if_neg hv] at h
        have := QSList.sizeOf_findContaining tail q h
        simp only [QSList.cons.sizeOf_spec]
        omega

theorem nesting_depth_ne_zero_shape {qs : QuorumSet} {v : ℕ}
    (h : nodes_nesting_depth qs v ≠ 0) :
    qs.validators ≠ [] ∨ qs.innerQuorumSets ≠ QSList.nil := by
  rw [nodes_nesting_depth] at h
  by_cases hv : v ∈ qs.validators
  · left
    intro he
    rw [he] at hv
    simp at hv
  · rw [if_neg hv] at h
    right
    intro he
    rw [he] at h
    simp [QSList.nestLoop] at h

theorem sizeOf_next_lt {qs : QuorumSet} {v : ℕ}
    (h : ¬ nodes_nesting_depth qs v = 0) :
    sizeOf (find_next_quorum_set_containing_node qs v) < sizeOf qs := by
  have hinner : sizeOf qs.innerQuorumSets < sizeOf qs := by
    cases qs with
    | node t vs inners =>
        simp only [QuorumSet.innerQuorumSets, QuorumSet.node.sizeOf_spec]
        have : 1 ≤ sizeOf vs := by cases vs <;> simp <;> omega
        omega
  rw [find_next_quorum_set_containing_node]
  cases hfind : QSList.findContaining v qs.innerQuorumSets with
  | some q => exact lt_trans (QSList.sizeOf_findContaining qs.innerQuorumSets q hfind) hinner
  | none =>
      have hempty : sizeOf emptyQuorumSet = 3 := by
        simp [emptyQuorumSet]
      rw [hempty]
      rcases nesting_depth_ne_zero_shape h with hvs | hin
      · cases qs with
        | node t vs inners =>
            cases vs with
            | nil => exact absurd rfl hvs
            | cons a l =>
                simp only [QuorumSet.node.sizeOf_spec, List.cons.sizeOf_spec]
                have h5 : 1 ≤ sizeOf inners := by cases inners <;> simp <;> omega
                have h6 : 1 ≤ sizeOf l := by cases l <;> simp <;> omega
                omega
      · cases qs with
        | node t vs inners =>
            cases inners with
            | nil => exact absurd rfl hin
            | cons q rest =>
                simp only [QuorumSet.node.sizeOf_spec, QSList.cons.sizeOf_spec]
                have h1 : 1 ≤ sizeOf vs := by cases vs <;> simp <;> omega
                have h2 : 1 ≤ sizeOf q := by cases q <;> simp <;> omega
                have h3 : 1 ≤ sizeOf rest := by cases rest <;> simp <;> omega
                omega

/-- Embedding of `node_weight_in_quorum_set` from `src/rank/util.rs`: weight 1
at nesting depth 0, else `qset_weight` times the weight in the next quorum set
containing the node. -/
def node_weight_in_quorum_set (v : ℕ) (qs : QuorumSet) : ℚ :=
  if _h : nodes_nesting_depth qs v = 0 then 1
  else qset_weight qs
    * node_weight_in_quorum_set v (find_next_quorum_set_containing_node qs v)
termination_by sizeOf qs
decreasing_by exact sizeOf_next_lt _h

theorem node_weight_eq (v : ℕ) (qs : QuorumSet) :
    node_weight_in_quorum_set v qs
      = if nodes_nesting_depth qs v = 0 then 1
        else qset_weight qs
          * node_weight_in_quorum_set v (find_next_quorum_set_containing_node qs v) := by
  rw [node_weight_in_quorum_set, dite_eq_ite]

/-! ### Claims C4 and C5 -/

/-- The spec's nested scenario: `{t=3, validators=[0,1], inner=[{t=1, [2,3]}]}`. -/
def nestedQset : QuorumSet := .node 3 [0, 1] (.cons (.node 1 [2, 3] .nil) .nil)

/-- The inner quorum set `{t=1, validators=[2,3]}` of `nestedQset`. -/
def innerQset : QuorumSet := .node 1 [2, 3] .nil

theorem node_weight_inner_two : node_weight_in_quorum_set 2 innerQset = 1 / 2 := by
  rw [node_weight_eq, if_neg (by decide),
    show find_next_quorum_set_containing_node innerQset 2 = emptyQuorumSet from by decide,
    node_weight_eq, if_pos (by decide), mul_one, qset_weight,
    show innerQset.threshold = 1 from rfl,
    show innerQset.containedNodes.card = 2 from by decide]
  norm_num

theorem node_weight_nested_two : node_weight_in_quorum_set 2 nestedQset = 3 / 8 := by
  rw [node_weight_eq, if_neg (by decide),
    show find_next_quorum_set_containing_node nestedQset 2 = innerQset from by decide,
    node_weight_inner_two, qset_weight,
    show nestedQset.threshold = 3 from rfl,
    show nestedQset.containedNodes.card = 4 from by decide]
  norm_num

/-- C4 (amended): at nesting depth ≥ 1 the node weight is `T/|Q|` times the
weight in the first child containing the node, where `|Q|` is the number of
transitively contained nodes of the quorum set (not the count of direct
validators plus inner quorum sets). -/
theorem C4_weight_recursion (qs : QuorumSet) (v : ℕ)
    (h : 1 ≤ nodes_nesting_depth qs v) :
    node_weight_in_quorum_set v qs
      = (qs.threshold : ℚ) / (qs.containedNodes.card : ℚ)
        * node_weight_in_quorum_set v (find_next_quorum_set_containing_node qs v) := by
  rw [node_weight_eq, if_neg (by omega), qset_weight]

/-- C4 witness: the recursion equation at the nested scenario qset and node 2. -/
theorem C4_witness :
    1 ≤ nodes_nesting_depth nestedQset 2
      ∧ node_weight_in_quorum_set 2 nestedQset
          = (nestedQset.threshold : ℚ) / (nestedQset.containedNodes.card : ℚ)
            * node_weight_in_quorum_set 2
                (find_next_quorum_set_containing_node nestedQset 2) :=
  ⟨by decide, C4_weight_recursion nestedQset 2 (by decide)⟩

/-- C4 counterexample: with `|Q|` read as the claim states it (direct
validators plus inner sets), the recursion equation fails at the nested
scenario qset and node 2: the code gives 3/8 = (3/4)·(1/2), the claim 1·(1/2). -/
theorem C4_counterexample :
    1 ≤ nodes_nesting_depth nestedQset 2
      ∧ node_weight_in_quorum_set 2 nestedQset = 3 / 8
      ∧ spec_qset_weight nestedQset
          * node_weight_in_quorum_set 2
              (find_next_quorum_set_containing_node nestedQset 2) = 1 / 2
      ∧ node_weight_in_quorum_set 2 nestedQset
          ≠ spec_qset_weight nestedQset
            * node_weight_in_quorum_set 2
                (find_next_quorum_set_containing_node nestedQset 2) := by
  have hspec : spec_qset_weight nestedQset
      * node_weight_in_quorum_set 2
          (find_next_quorum_set_containing_node nestedQset 2) = 1 / 2 := by
    rw [show find_next_quorum_set_containing_node nestedQset 2 = innerQset from by decide,
      node_weight_inner_two, spec_qset_weight,
      show nestedQset.threshold = 3 from rfl,
      show nestedQset.validators.length = 2 from rfl,
      show nestedQset.innerQuorumSets.length = 1 from rfl]
    norm_num
  refine ⟨by decide, node_weight_nested_two, hspec, ?_⟩
  rw [node_weight_nested_two, hspec]
  norm_num

/-- C5: node 7 occurs nowhere in the nested scenario qset, yet its weight is
3/4 rather than 1, because `depth_in_inner_sets` reports depth 1 for an absent
node and `nodes_nesting_depth` therefore reports 2 whenever an inner quorum
set exists. -/
theorem C5_missing_node_weight_not_one :
    (7 ∉ nestedQset.containedNodes)
      ∧ nodes_nesting_depth nestedQset 7 = 2
      ∧ node_weight_in_quorum_set 7 nestedQset = 3 / 4
      ∧ node_weight_in_quorum_set 7 nestedQset ≠ 1 := by
  have hw : node_weight_in_quorum_set 7 nestedQset = 3 / 4 := by
    rw [node_weight_eq, if_neg (by decide),
      show find_next_quorum_set_containing_node nestedQset 7 = emptyQuorumSet from by decide,
      node_weight_eq, if_pos (by decide), mul_one, qset_weight,
      show nestedQset.threshold = 3 from rfl,
      show nestedQset.containedNodes.card = 4 from by decide]
    norm_num
  refine ⟨by decide, by decide, hw, ?_⟩
  rw [hw]
  norm_num

/-! ## Approximate-index sampler (`src/rank/approx_shapley_shubik.rs`), claim C2 -/

/-- One swap of the entries at positions `i` and `j` of a list (the slice swap
inside the Fisher–Yates shuffle). -/
def listSwap (l : List ℕ) (i j : ℕ) : List ℕ :=
  (l.set i (l.getD j 0)).set j (l.getD i 0)

/-- Fisher–Yates as `rand`'s `SliceRandom::shuffle` performs it: for `i` from
`len−1` down to 1, swap position `i` with a drawn position in `0..=i`;
`draws i` is the random draw consumed at step `i`, reduced mod `i+1` to its
range. -/
def fisherYatesAux (draws : ℕ → ℕ) : ℕ → List ℕ → List ℕ
  | 0, l => l
  | i + 1, l => fisherYatesAux draws i (listSwap l (i + 1) (draws (i + 1) % (i + 2)))

/-- A full shuffle of the buffer. -/
def fyShuffle (draws : ℕ → ℕ) (l : List ℕ) : List ℕ :=
  fisherYatesAux draws (l.length - 1) l

/-- Worker for `generate_sample_permutations`, threading the mutable
grand-coalition buffer through the repeated shuffles. -/
def generateSamplePermutationsAux (threadRngDraws : ℕ → ℕ → ℕ) :
    ℕ → ℕ → List ℕ → List (List ℕ)
  | _, 0, _ => []
  | idx, k + 1, buf =>
      let buf2 := fyShuffle (threadRngDraws idx) buf
      buf2 :: generateSamplePermutationsAux threadRngDraws (idx + 1) k buf2

/-- Embedding of `generate_sample_permutations`: the grand coalition is
shuffled `no_samples` times (each shuffle starting from the previous buffer
state) and cloned after each shuffle.  The source draws its randomness from
`rand::thread_rng()` — the function has no seed parameter, nor does
`compute_approx_ss_power_index_for_game` in the cited file — so the ambient
generator enters the model as the explicit draw stream `threadRngDraws`, one
draw function per sample index. -/
def generate_sample_permutations (noSamples : ℕ) (players : List ℕ)
    (threadRngDraws : ℕ → ℕ → ℕ) : List (List ℕ) :=
  generateSamplePermutationsAux threadRngDraws 0 noSamples players

/-- C2: the sampler's output is a function of the ambient `thread_rng` state
rather than of any seed — two ambient streams yield different outputs for
identical arguments, so equal seeds do not imply equal outputs. -/
theorem C2_sampler_depends_on_ambient_rng :
    generate_sample_permutations 1 [0, 1] (fun _ _ => 0) = [[1, 0]]
      ∧ generate_sample_permutations 1 [0, 1] (fun _ _ => 1) = [[0, 1]]
      ∧ generate_sample_permutations 1 [0, 1] (fun _ _ => 0)
          ≠ generate_sample_permutations 1 [0, 1] (fun _ _ => 1) :=
  ⟨rfl, rfl, by decide⟩

/-! ## IEEE special values and reward allocation (`src/dist/allocate.rs`) -/

/-- The fragment of IEEE `f64` needed where NaN and the infinities matter: a
finite value (idealised as an exact rational), the two infinities, or NaN. -/
inductive FP : Type where
  | fin (q : ℚ)
  | pinf
  | ninf
  | nan
deriving DecidableEq

/-- IEEE multiplication on the modelled values. -/
def FP.mul : FP → FP → FP
  | .fin a, .fin b => .fin (a * b)
  | .fin a, .pinf => if a = 0 then .nan else if 0 < a then .pinf else .ninf
  | .pinf, .fin a => if a = 0 then .nan else if 0 < a then .pinf else .ninf
  | .fin a, .ninf => if a = 0 then .nan else if 0 < a then .ninf else .pinf
  | .ninf, .fin a => if a = 0 then .nan else if 0 < a then .ninf else .pinf
  | .pinf, .pinf => .pinf
  | .ninf, .ninf => .pinf
  | .pinf, .ninf => .ninf
  | .ninf, .pinf => .ninf
  | .nan, _ => .nan
  | _, .nan => .nan

/-- IEEE division on the modelled values (`0.0/0.0 = NaN`, `x/0.0 = ±∞` for
finite nonzero `x`). -/
def FP.div : FP → FP → FP
  | .fin a, .fin b =>
      if b = 0 then (if a = 0 then .nan else if 0 < a then .pinf else .ninf)
      else .fin (a / b)
  | .fin _, .pinf => .fin 0
  | .fin _, .ninf => .fin 0
  | .pinf, .fin b => if 0 ≤ b then .pinf else .ninf
  | .ninf, .fin b => if 0 ≤ b then .ninf else .pinf
  | .pinf, .pinf => .nan
  | .pinf, .ninf => .nan
  | .ninf, .pinf => .nan
  | .ninf, .ninf => .nan
  | .nan, _ => .nan
  | _, .nan => .nan

/-- `f64::trunc` on the modelled values (NaN and the infinities pass through). -/
def FP.truncF : FP → FP
  | .fin q => .fin (ratTrunc q)
  | x => x

/-- `round_to_three_places` on the modelled values. -/
def fpRoundToThreePlaces (x : FP) : FP :=
  FP.div (FP.truncF (FP.mul x (FP.fin 1000))) (FP.fin 1000)

/-! ## NodeRank (`src/rank/node_rank.rs`) and `graph_theory_distribution` -/

/-- Embedding of `all_quorum_sets_containing_node` from `src/rank/util.rs`:
the distinct quorum sets of the FBAS whose transitively contained nodes
include the node (a `HashSet` in the source, so structurally equal quorum sets
are collapsed). -/
def all_quorum_sets_containing_node (v : ℕ) (fbas : Fbas) : Finset QuorumSet :=
  (List.map (fun u => Fbas.qsetOf fbas u) (List.range fbas.size)).toFinset.filter
    (fun qs => v ∈ qs.containedNodes)

/-- Embedding of `get_list_of_creators_for_quorum_set` together with the map
built by `map_quorum_sets_to_generators`: the nodes publishing a structurally
equal quorum set.  The source keys its map by the SHA3-256 digest of the
canonical encoding; the digest is a content identifier equal exactly on
byte-equal canonical strings, modelled as structural equality. -/
def get_list_of_creators_for_quorum_set (qs : QuorumSet) (fbas : Fbas) : Finset ℕ :=
  (Finset.range fbas.size).filter (fun u => Fbas.qsetOf fbas u = qs)

/-- Embedding of `compute_node_rank` from `src/rank/node_rank.rs`: over every
distinct quorum set containing the node, the sum of its publishers' PageRank
scores times the node's weight in it, rounded to three places.  The PageRank
vector is produced by the external library's `fbas.rank_nodes()` (spec §6.3)
and enters as the parameter `pr`. -/
def compute_node_rank (v : ℕ) (fbas : Fbas) (pr : List ℚ) : ℚ :=
  round_to_three_places
    (∑ qs in all_quorum_sets_containing_node v fbas,
      (∑ u in get_list_of_creators_for_quorum_set qs fbas, pr.getD u 0)
        * node_weight_in_quorum_set v qs)

/-- Embedding of `compute_node_rank_for_fbas`. -/
def compute_node_rank_for_fbas (nodes : List ℕ) (fbas : Fbas) (pr : List ℚ) :
    List ℚ :=
  nodes.map (fun v => compute_node_rank v fbas pr)

/-- Embedding of `graph_theory_distribution` from `src/dist/allocate.rs`:
NodeRank scores, their sum, and per node the reward
`round_to_three_places((score / sum) * reward)` with the `f64` division and
multiplication taken in the `FP` model. -/
def graph_theory_distribution (nodes : List ℕ) (fbas : Fbas) (pr : List ℚ)
    (reward : ℚ) : List (ℕ × FP × FP) :=
  let scores := compute_node_rank_for_fbas nodes fbas pr
  let nodeRankSum : ℚ := scores.sum
  (List.range scores.length).map (fun node =>
    (node, FP.fin (scores.getD node 0),
      fpRoundToThreePlaces (FP.mul
        (FP.div (FP.fin (scores.getD node 0)) (FP.fin nodeRankSum))
        (FP.fin reward))))

theorem round_to_three_places_zero : round_to_three_places 0 = 0 := by
  rw [round_to_three_places, ratTrunc, if_pos (by norm_num)]
  norm_num

/-! ### Claim C7 -/

/-- A one-node FBAS whose node publishes the empty quorum set: no node appears
in any quorum set, so every NodeRank score is 0. -/
def isolatedFbas : Fbas := [emptyQuorumSet]

theorem isolatedFbas_node_rank : compute_node_rank 0 isolatedFbas [1] = 0 := by
  rw [compute_node_rank,
    show all_quorum_sets_containing_node 0 isolatedFbas = ∅ from by decide,
    Finset.sum_empty, round_to_three_places_zero]

/-- C7: on an FBAS where the NodeRank sum is zero, `graph_theory_distribution`
computes the reward factor `0.0 / 0.0 = NaN` and returns NaN rewards, not the
zero rewards the claim requires. -/
theorem C7_zero_sum_rewards_are_nan :
    compute_node_rank_for_fbas [0] isolatedFbas [1] = [0]
      ∧ (compute_node_rank_for_fbas [0] isolatedFbas [1]).sum = 0
      ∧ graph_theory_distribution [0] isolatedFbas [1] 10 = [(0, FP.fin 0, FP.nan)]
      ∧ FP.nan ≠ FP.fin 0 := by
  have hscores : compute_node_rank_for_fbas [0] isolatedFbas [1] = [0] := by
    simp [compute_node_rank_for_fbas, isolatedFbas_node_rank]
  refine ⟨hscores, by rw [hscores]; simp, ?_, by decide⟩
  rw [graph_theory_distribution, hscores]
  norm_num [fpRoundToThreePlaces, FP.div, FP.mul, FP.truncF,
    show List.range 1 = [0] from rfl]

/-! ## Report assembly (`src/io/report.rs`), claims C9 and C10 -/

/-- `f64::partial_cmp`: `none` exactly when a NaN is involved. -/
def fpPartialCmp : FP → FP → Option Ordering
  | .nan, _ => none
  | _, .nan => none
  | .fin a, .fin b => some (if a < b then .lt else if b < a then .gt else .eq)
  | .fin _, .pinf => some .lt
  | .fin _, .ninf => some .gt
  | .pinf, .fin _ => some .gt
  | .ninf, .fin _ => some .lt
  | .pinf, .pinf => some .eq
  | .ninf, .ninf => some .eq
  | .pinf, .ninf => some .gt
  | .ninf, .pinf => some .lt

theorem fpPartialCmp_isSome {x y : FP} (hx : x ≠ FP.nan) (hy : y ≠ FP.nan) :
    (fpPartialCmp x y).isSome = true := by
  cases x <;> cases y <;> simp_all [fpPartialCmp]

theorem fpPartialCmp_eq_iff {x y : FP} :
    fpPartialCmp x y = some Ordering.eq ↔ (x = y ∧ x ≠ FP.nan) := by
  cases x <;> cases y <;> simp_all [fpPartialCmp]
  constructor
  · rintro ⟨h1, h2⟩
    linarith
  · rintro rfl
    simp

theorem fpPartialCmp_lt_gt_swap {x y : FP} :
    fpPartialCmp x y = some Ordering.lt ↔ fpPartialCmp y x = some Ordering.gt := by
  cases x <;> cases y <;> simp_all [fpPartialCmp]
  all_goals intro h; linarith

theorem fpPartialCmp_gt_trans {x y z : FP}
    (h1 : fpPartialCmp x y = some Ordering.gt)
    (h2 : fpPartialCmp y z = some Ordering.gt) :
    fpPartialCmp x z = some Ordering.gt := by
  cases x <;> cases y <;> cases z <;> simp_all [fpPartialCmp]
  exact ⟨by linarith [h1.2, h2.2], by linarith [h1.2, h2.2]⟩

/-- Insertion into a sorted prefix with a fallible comparator: the new element
is placed before the first element it strictly precedes and after every
earlier one, the relative position Rust's stable `sort_by` gives an element
arriving later in the input (`none` models the comparator's `unwrap` panic on
an incomparable pair). -/
def orderedInsertOpt {α : Type} (cmp : α → α → Option Ordering) (a : α) :
    List α → Option (List α)
  | [] => some [a]
  | b :: t =>
      match cmp a b with
      | none => none
      | some .lt => some (a :: b :: t)
      | some _ => (orderedInsertOpt cmp a t).map (fun r => b :: r)

/-- Worker of `sortByOpt` threading the sorted prefix. -/
def sortByOptAux {α : Type} (cmp : α → α → Option Ordering) :
    List α → List α → Option (List α)
  | acc, [] => some acc
  | acc, a :: t =>
      match orderedInsertOpt cmp a acc with
      | none => none
      | some acc2 => sortByOptAux cmp acc2 t

/-- Model of Rust's stable `slice::sort_by` with a comparator that may panic:
a stable sort's output is uniquely determined by the comparator and the input
order, so this stable insertion sort stands in for the source's merge sort,
and `none` models a panic in some executed comparison. -/
def sortByOpt {α : Type} (cmp : α → α → Option Ordering) (l : List α) :
    Option (List α) :=
  sortByOptAux cmp [] l

theorem orderedInsertOpt_some {α : Type} {P : α → Prop}
    {cmp : α → α → Option Ordering}
    (hcmp : ∀ a b, P a → P b → (cmp a b).isSome = true) {a : α} (ha : P a) :
    ∀ {l : List α}, (∀ x ∈ l, P x) →
      ∃ r, orderedInsertOpt cmp a l = some r ∧ ∀ x ∈ r, x = a ∨ x ∈ l := by
  intro l
  induction l with
  | nil =>
      intro _
      exact ⟨[a], rfl, by simp⟩
  | cons b t ih =>
      intro hl
      have hb : P b := hl b (by simp)
      rcases ho : cmp a b with _ | o
      · have hs := hcmp a b ha hb
        rw [ho] at hs
        simp at hs
      · rw [orderedInsertOpt, ho]
        match o with
        | .lt =>
            refine ⟨a :: b :: t, rfl, ?_⟩
            intro x hx
            rcases List.mem_cons.mp hx with rfl | hx
            · exact Or.inl rfl
            · exact Or.inr hx
        | .eq =>
            obtain ⟨r, hr, hmem⟩ := ih (fun x hx => hl x (by simp [hx]))
            refine ⟨b :: r, by rw [hr]; rfl, ?_⟩
            intro x hx
            rcases List.mem_cons.mp hx with rfl | hx
            · simp
            · rcases hmem x hx with rfl | hx2
              · simp
              · simp [hx2]
        | .gt =>
            obtain ⟨r, hr, hmem⟩ := ih (fun x hx => hl x (by simp [hx]))
            refine ⟨b :: r, by rw [hr]; rfl, ?_⟩
            intro x hx
            rcases List.mem_cons.mp hx with rfl | hx
            · simp
            · rcases hmem x hx with rfl | hx2
              · simp
              · simp [hx2]

theorem sortByOptAux_some {α : Type} {P : α → Prop}
    {cmp : α → α → Option Ordering}
    (hcmp : ∀ a b, P a → P b → (cmp a b).isSome = true) :
    ∀ {l : List α} (acc : List α), (∀ x ∈ acc, P x) → (∀ x ∈ l, P x) →
      ∃ r, sortByOptAux cmp acc l = some r ∧ ∀ x ∈ r, x ∈ acc ∨ x ∈ l := by
  intro l
  induction l with
  | nil =>
      intro acc hacc _
      exact ⟨acc, rfl, by simp⟩
  | cons a t ih =>
      intro acc hacc hl
      have ha : P a := hl a (by simp)
      obtain ⟨acc2, hacc2, hmem2⟩ :=
        orderedInsertOpt_some hcmp ha (fun x hx => hacc x hx)
      have hacc2P : ∀ x ∈ acc2, P x := fun x hx => by
        rcases hmem2 x hx with rfl | hx2
        · exact ha
        · exact hacc x hx2
      obtain ⟨r, hr, hmemr⟩ := ih acc2 hacc2P (fun x hx => hl x (by simp [hx]))
      refine ⟨r, ?_, ?_⟩
      · rw [sortByOptAux, hacc2]
        exact hr
      · intro x hx
        rcases hmemr x hx with hx2 | hx2
        · rcases hmem2 x hx2 with rfl | hx3
          · simp
          · simp [hx3]
        · simp [hx2]

/-! ### The report builders -/

/-- Embedding of `create_node_ranking_report` from `src/io/report.rs`: one
tuple per input node (public keys resolved by the external `to_public_keys`,
entering as `pks`), sorted by
`scores[y.0].partial_cmp(&scores[x.0]).unwrap()`; `none` models the panic on
a NaN comparison. -/
def create_node_ranking_report (nodes : List ℕ) (scores : List FP)
    (pks : List String) (withPks : Bool) : Option (List (ℕ × String × FP)) :=
  let rankings : List (ℕ × String × FP) :=
    nodes.map (fun node =>
      (node, if withPks then pks.getD node "" else "", scores.getD node (FP.fin 0)))
  sortByOpt (fun x y =>
    fpPartialCmp (scores.getD y.1 (FP.fin 0)) (scores.getD x.1 (FP.fin 0))) rankings

/-- Embedding of `create_reward_report` from `src/io/report.rs`: the id,
score and reward columns are unzipped, tuples are rebuilt per node and sorted
with the same score comparator. -/
def create_reward_report (idScoreReward : List (ℕ × FP × FP))
    (pks : List String) (withPks : Bool) :
    Option (List (ℕ × String × FP × FP)) :=
  let nodes := idScoreReward.map (fun t => t.1)
  let scores := idScoreReward.map (fun t => t.2.1)
  let rewards := idScoreReward.map (fun t => t.2.2)
  let items : List (ℕ × String × FP × FP) :=
    nodes.map (fun node =>
      (node, if withPks then pks.getD node "" else "",
        scores.getD node (FP.fin 0), rewards.getD node (FP.fin 0)))
  sortByOpt (fun x y =>
    fpPartialCmp (scores.getD y.1 (FP.fin 0)) (scores.getD x.1 (FP.fin 0))) items

theorem getD_mem_of_lt {l : List FP} {v : ℕ} (h : v < l.length) :
    l.getD v (FP.fin 0) ∈ l := by
  rw [List.getD_eq_getElem l (FP.fin 0) h]
  exact List.getElem_mem h

/-! ### Claim C10 -/

/-- C10: the report builders are not total in the scores.  A NaN score makes
the sort comparator's `partial_cmp` return `None` and the `unwrap` panic
(modelled as `none`); on every input whose scores are all non-NaN (node ids in
range) both builders return normally. -/
theorem C10_reports_panic_on_nan_total_otherwise :
    create_node_ranking_report [0, 1] [FP.nan, FP.fin 0] [] false = none
      ∧ create_reward_report [(0, FP.nan, FP.fin 0), (1, FP.fin 0, FP.fin 0)] [] false
          = none
      ∧ (∀ (nodes : List ℕ) (scores : List FP) (pks : List String) (wp : Bool),
          (∀ v ∈ nodes, v < scores.length) → (∀ s ∈ scores, s ≠ FP.nan) →
          (create_node_ranking_report nodes scores pks wp).isSome = true)
      ∧ (∀ (l : List (ℕ × FP × FP)) (pks : List String) (wp : Bool),
          (∀ t ∈ l, t.1 < l.length) → (∀ t ∈ l, t.2.1 ≠ FP.nan) →
          (create_reward_report l pks wp).isSome = true) := by
  refine ⟨rfl, rfl, ?_, ?_⟩
  · intro nodes scores pks wp hrange hnn
    have hcmp : ∀ a b : ℕ × String × FP,
        scores.getD a.1 (FP.fin 0) ≠ FP.nan → scores.getD b.1 (FP.fin 0) ≠ FP.nan →
        ((fun x y : ℕ × String × FP =>
            fpPartialCmp (scores.getD y.1 (FP.fin 0)) (scores.getD x.1 (FP.fin 0)))
          a b).isSome = true :=
      fun _ _ hpa hpb => fpPartialCmp_isSome hpb hpa
    have hall : ∀ x ∈ nodes.map (fun node =>
        (node, if wp then pks.getD node "" else "", scores.getD node (FP.fin 0))),
        scores.getD x.1 (FP.fin 0) ≠ FP.nan := by
      intro x hx
      obtain ⟨node, hnode, rfl⟩ := List.mem_map.mp hx
      exact hnn _ (getD_mem_of_lt (hrange node hnode))
    obtain ⟨r, hr, -⟩ := sortByOptAux_some hcmp []
      (fun x hx => absurd hx (List.not_mem_nil x)) hall
    simp only [create_node_ranking_report, sortByOpt]
    rw [hr]
    rfl
  · intro l pks wp hrange hnn
    have hlen : (l.map (fun t => t.2.1)).length = l.length := List.length_map l _
    have hcmp : ∀ a b : ℕ × String × FP × FP,
        (l.map (fun t => t.2.1)).getD a.1 (FP.fin 0) ≠ FP.nan →
        (l.map (fun t => t.2.1)).getD b.1 (FP.fin 0) ≠ FP.nan →
        ((fun x y : ℕ × String × FP × FP =>
            fpPartialCmp ((l.map (fun t => t.2.1)).getD y.1 (FP.fin 0))
              ((l.map (fun t => t.2.1)).getD x.1 (FP.fin 0)))
          a b).isSome = true :=
      fun _ _ hpa hpb => fpPartialCmp_isSome hpb hpa
    have hall : ∀ x ∈ (l.map (fun t => t.1)).map (fun node =>
        (node, if wp then pks.getD node "" else "",
          (l.map (fun t => t.2.1)).getD node (FP.fin 0),
          (l.map (fun t => t.2.2)).getD node (FP.fin 0))),
        (l.map (fun t => t.2.1)).getD x.1 (FP.fin 0) ≠ FP.nan := by
      intro x hx
      obtain ⟨node, hnode, rfl⟩ := List.mem_map.mp hx
      obtain ⟨t, ht, rfl⟩ := List.mem_map.mp hnode
      have hmem := getD_mem_of_lt (l := l.map (fun t => t.2.1))
        (v := t.1) (by rw [hlen]; exact hrange t ht)
      obtain ⟨u, hu, hue⟩ := List.mem_map.mp hmem
      rw [← hue]
      exact hnn u hu
    obtain ⟨r, hr, -⟩ := sortByOptAux_some hcmp []
      (fun x hx => absurd hx (List.not_mem_nil x)) hall
    simp only [create_reward_report, sortByOpt]
    rw [hr]
    rfl

/-- C10 witness: a one-row non-NaN input on which both builders return
normally, by the totality parts of the theorem. -/
theorem C10_witness :
    ((∀ v ∈ [0], v < ([FP.fin 1] : List FP).length)
        ∧ (∀ s ∈ ([FP.fin 1] : List FP), s ≠ FP.nan)
        ∧ (∀ t ∈ [((0 : ℕ), FP.fin 1, FP.fin 2)],
            t.1 < [((0 : ℕ), FP.fin 1, FP.fin 2)].length)
        ∧ (∀ t ∈ [((0 : ℕ), FP.fin 1, FP.fin 2)], t.2.1 ≠ FP.nan))
      ∧ (create_node_ranking_report [0] [FP.fin 1] [] false).isSome = true
      ∧ (create_reward_report [(0, FP.fin 1, FP.fin 2)] [] false).isSome = true :=
  ⟨⟨by decide, by decide, by decide, by decide⟩,
    C10_reports_panic_on_nan_total_otherwise.2.2.1 [0] [FP.fin 1] [] false
      (by decide) (by decide),
    C10_reports_panic_on_nan_total_otherwise.2.2.2 [(0, FP.fin 1, FP.fin 2)] [] false
      (by decide) (by decide)⟩

/-! ### Claim C9 -/

/-- Score-descending order with ties broken by ascending id, over a key
function `kf` (the comparator's score lookup) and an id function `idf`. -/
def rOrd {α : Type} (kf : α → FP) (idf : α → ℕ) (x y : α) : Prop :=
  fpPartialCmp (kf x) (kf y) = some Ordering.gt ∨ (kf x = kf y ∧ idf x < idf y)

theorem rOrd_of_gt {α : Type} {kf : α → FP} {idf : α → ℕ} {a b x : α}
    (hab : fpPartialCmp (kf a) (kf b) = some Ordering.gt)
    (hbx : rOrd kf idf b x) : rOrd kf idf a x := by
  rcases hbx with hgt | ⟨heq, -⟩
  · exact Or.inl (fpPartialCmp_gt_trans hab hgt)
  · exact Or.inl (heq ▸ hab)

theorem orderedInsertOpt_sorted {α : Type} {kf : α → FP} {idf : α → ℕ} {a : α}
    (hann : kf a ≠ FP.nan) :
    ∀ {l : List α}, (∀ x ∈ l, kf x ≠ FP.nan) → (∀ x ∈ l, idf x < idf a) →
      l.Pairwise (rOrd kf idf) →
      ∃ r, orderedInsertOpt (fun x y => fpPartialCmp (kf y) (kf x)) a l = some r
        ∧ r.Pairwise (rOrd kf idf) ∧ ∀ x ∈ r, x = a ∨ x ∈ l := by
  intro l
  induction l with
  | nil =>
      intro _ _ _
      exact ⟨[a], rfl, by simp, by simp⟩
  | cons b t ih =>
      intro hnn hid hpw
      have hbnn : kf b ≠ FP.nan := hnn b (by simp)
      rw [List.pairwise_cons] at hpw
      obtain ⟨hbAll, hpwt⟩ := hpw
      rcases ho : fpPartialCmp (kf b) (kf a) with _ | o
      · have hs := fpPartialCmp_isSome hbnn hann
        rw [ho] at hs
        simp at hs
      · rw [orderedInsertOpt, ho]
        match o with
        | .lt =>
            have hgt : fpPartialCmp (kf a) (kf b) = some Ordering.gt :=
              fpPartialCmp_lt_gt_swap.mp ho
            refine ⟨a :: b :: t, rfl, ?_, ?_⟩
            · rw [List.pairwise_cons]
              refine ⟨?_, List.pairwise_cons.mpr ⟨hbAll, hpwt⟩⟩
              intro x hx
              rcases List.mem_cons.mp hx with rfl | hxt
              · exact Or.inl hgt
              · exact rOrd_of_gt hgt (hbAll x hxt)
            · intro x hx
              rcases List.mem_cons.mp hx with rfl | h2
              · exact Or.inl rfl
              · exact Or.inr h2
        | .eq =>
            have hba : kf b = kf a := (fpPartialCmp_eq_iff.mp ho).1
            obtain ⟨r, hr, hpwr, hmem⟩ := ih (fun x hx => hnn x (by simp [hx]))
              (fun x hx => hid x (by simp [hx])) hpwt
            refine ⟨b :: r, by rw [hr]; rfl, ?_, ?_⟩
            · rw [List.pairwise_cons]
              refine ⟨?_, hpwr⟩
              intro x hx
              rcases hmem x hx with rfl | hxt
              · exact Or.inr ⟨hba, hid b (by simp)⟩
              · exact hbAll x hxt
            · intro x hx
              rcases List.mem_cons.mp hx with rfl | hxr
              · exact Or.inr (by simp)
              · rcases hmem x hxr with rfl | h3
                · exact Or.inl rfl
                · exact Or.inr (by simp [h3])
        | .gt =>
            obtain ⟨r, hr, hpwr, hmem⟩ := ih (fun x hx => hnn x (by simp [hx]))
              (fun x hx => hid x (by simp [hx])) hpwt
            refine ⟨b :: r, by rw [hr]; rfl, ?_, ?_⟩
            · rw [List.pairwise_cons]
              refine ⟨?_, hpwr⟩
              intro x hx
              rcases hmem x hx with rfl | hxt
              · exact Or.inl ho
              · exact hbAll x hxt
            · intro x hx
              rcases List.mem_cons.mp hx with rfl | hxr
              · exact Or.inr (by simp)
              · rcases hmem x hxr with rfl | h3
                · exact Or.inl rfl
                · exact Or.inr (by simp [h3])

theorem sortByOptAux_sorted {α : Type} (kf : α → FP) (idf : α → ℕ) :
    ∀ {l : List α} (acc : List α), (∀ x ∈ acc, kf x ≠ FP.nan) → (∀ x ∈ l, kf x ≠ FP.nan) →
      acc.Pairwise (rOrd kf idf) →
      (∀ x ∈ acc, ∀ y ∈ l, idf x < idf y) →
      l.Pairwise (fun x y => idf x < idf y) →
      ∃ r, sortByOptAux (fun x y => fpPartialCmp (kf y) (kf x)) acc l = some r
        ∧ r.Pairwise (rOrd kf idf) ∧ ∀ x ∈ r, x ∈ acc ∨ x ∈ l := by
  intro l
  induction l with
  | nil =>
      intro acc _ _ hpw _ _
      exact ⟨acc, rfl, hpw, by simp⟩
  | cons a t ih =>
      intro acc haccnn hlnn hpwacc hcross hpwl
      have hann : kf a ≠ FP.nan := hlnn a (by simp)
      obtain ⟨acc2, hacc2, hpw2, hmem2⟩ :=
        orderedInsertOpt_sorted hann haccnn
          (fun x hx => hcross x hx a (by simp)) hpwacc
      rw [List.pairwise_cons] at hpwl
      obtain ⟨haLt, hpwt⟩ := hpwl
      have hnn2 : ∀ x ∈ acc2, kf x ≠ FP.nan := fun x hx => by
        rcases hmem2 x hx with rfl | h2
        · exact hann
        · exact haccnn x h2
      have hcross2 : ∀ x ∈ acc2, ∀ y ∈ t, idf x < idf y := fun x hx y hy => by
        rcases hmem2 x hx with rfl | h2
        · exact haLt y hy
        · exact hcross x h2 y (by simp [hy])
      obtain ⟨r, hr, hpwr, hmemr⟩ :=
        ih acc2 hnn2 (fun x hx => hlnn x (by simp [hx])) hpw2 hcross2 hpwt
      refine ⟨r, ?_, hpwr, ?_⟩
      · rw [sortByOptAux, hacc2]
        exact hr
      · intro x hx
        rcases hmemr x hx with h2 | h2
        · rcases hmem2 x h2 with rfl | h3
          · exact Or.inr (by simp)
          · exact Or.inl h3
        · exact Or.inr (by simp [h2])

/-- The order claim C9 asserts of node-ranking rows: score strictly
descending, equal scores listed by ascending NodeId. -/
def rankingRowOrd (x y : ℕ × String × FP) : Prop :=
  fpPartialCmp x.2.2 y.2.2 = some Ordering.gt ∨ (x.2.2 = y.2.2 ∧ x.1 < y.1)

/-- The same order for reward rows. -/
def rewardRowOrd (x y : ℕ × String × FP × FP) : Prop :=
  fpPartialCmp x.2.2.1 y.2.2.1 = some Ordering.gt ∨ (x.2.2.1 = y.2.2.1 ∧ x.1 < y.1)

instance (x y : ℕ × String × FP) : Decidable (rankingRowOrd x y) := by
  unfold rankingRowOrd; infer_instance

/-- C9 (amended): report rows are sorted by score descending with ties kept
in input order (the sort is stable), so when the input node list is ascending
— and for the reward report when the tuples carry ids `0,1,…,n−1` in order,
as the distribution functions produce them — ties are broken by NodeId
ascending. -/
theorem C9_reports_sorted_when_input_ascending :
    (∀ (nodes : List ℕ) (scores : List FP) (pks : List String) (wp : Bool),
        nodes.Pairwise (· < ·) → (∀ v ∈ nodes, v < scores.length) →
        (∀ s ∈ scores, s ≠ FP.nan) →
        ∃ r, create_node_ranking_report nodes scores pks wp = some r
          ∧ r.Pairwise rankingRowOrd)
      ∧ (∀ (l : List (ℕ × FP × FP)) (pks : List String) (wp : Bool),
          l.map (fun t => t.1) = List.range l.length →
          (∀ t ∈ l, t.2.1 ≠ FP.nan) →
          ∃ r, create_reward_report l pks wp = some r
            ∧ r.Pairwise rewardRowOrd) := by
  constructor
  · intro nodes scores pks wp hasc hrange hnn
    have hnnall : ∀ x ∈ nodes.map (fun node =>
        (node, if wp then pks.getD node "" else "", scores.getD node (FP.fin 0))),
        scores.getD x.1 (FP.fin 0) ≠ FP.nan := by
      intro x hx
      obtain ⟨node, hnode, rfl⟩ := List.mem_map.mp hx
      exact hnn _ (getD_mem_of_lt (hrange node hnode))
    have hpwids : (nodes.map (fun node =>
        (node, if wp then pks.getD node "" else "", scores.getD node (FP.fin 0)))).Pairwise
          (fun x y : ℕ × String × FP => x.1 < y.1) := by
      rw [List.pairwise_map]
      exact hasc
    obtain ⟨r, hr, hpwr, hmemr⟩ := sortByOptAux_sorted
      (fun x : ℕ × String × FP => scores.getD x.1 (FP.fin 0))
      (fun x : ℕ × String × FP => x.1) []
      (by simp) hnnall (by simp) (by simp) hpwids
    refine ⟨r, ?_, ?_⟩
    · simp only [create_node_ranking_report, sortByOpt]
      exact hr
    · have hstored : ∀ x ∈ r, x.2.2 = scores.getD x.1 (FP.fin 0) := by
        intro x hx
        rcases hmemr x hx with h | h
        · simp at h
        · obtain ⟨node, hnode, rfl⟩ := List.mem_map.mp h
          rfl
      refine List.Pairwise.imp_of_mem ?_ hpwr
      intro x y hx hy hxy
      rcases hxy with hgt | ⟨heq, hid⟩
      · exact Or.inl (by rw [hstored x hx, hstored y hy]; exact hgt)
      · exact Or.inr ⟨by rw [hstored x hx, hstored y hy]; exact heq, hid⟩
  · intro l pks wp hids hnn
    have hlen : (l.map (fun t => t.2.1)).length = l.length := List.length_map l _
    have hnnall : ∀ x ∈ (l.map (fun t => t.1)).map (fun node =>
        (node, if wp then pks.getD node "" else "",
          (l.map (fun t => t.2.1)).getD node (FP.fin 0),
          (l.map (fun t => t.2.2)).getD node (FP.fin 0))),
        (l.map (fun t => t.2.1)).getD x.1 (FP.fin 0) ≠ FP.nan := by
      intro x hx
      obtain ⟨node, hnode, rfl⟩ := List.mem_map.mp hx
      rw [hids] at hnode
      have hmem := getD_mem_of_lt (l := l.map (fun t => t.2.1)) (v := node)
        (by rw [hlen]; exact List.mem_range.mp hnode)
      obtain ⟨u, hu, hue⟩ := List.mem_map.mp hmem
      rw [← hue]
      exact hnn u hu
    have hpwids : ((l.map (fun t => t.1)).map (fun node =>
        (node, if wp then pks.getD node "" else "",
          (l.map (fun t => t.2.1)).getD node (FP.fin 0),
          (l.map (fun t => t.2.2)).getD node (FP.fin 0)))).Pairwise
          (fun x y : ℕ × String × FP × FP => x.1 < y.1) := by
      rw [List.pairwise_map, hids]
      exact List.pairwise_lt_range _
    obtain ⟨r, hr, hpwr, hmemr⟩ := sortByOptAux_sorted
      (fun x : ℕ × String × FP × FP => (l.map (fun t => t.2.1)).getD x.1 (FP.fin 0))
      (fun x : ℕ × String × FP × FP => x.1) []
      (by simp) hnnall (by simp) (by simp) hpwids
    refine ⟨r, ?_, ?_⟩
    · simp only [create_reward_report, sortByOpt]
      exact hr
    · have hstored : ∀ x ∈ r, x.2.2.1 = (l.map (fun t => t.2.1)).getD x.1 (FP.fin 0) := by
        intro x hx
        rcases hmemr x hx with h | h
        · simp at h
        · obtain ⟨node, hnode, rfl⟩ := List.mem_map.mp h
          rfl
      refine List.Pairwise.imp_of_mem ?_ hpwr
      intro x y hx hy hxy
      rcases hxy with hgt | ⟨heq, hid⟩
      · exact Or.inl (by rw [hstored x hx, hstored y hy]; exact hgt)
      · exact Or.inr ⟨by rw [hstored x hx, hstored y hy]; exact heq, hid⟩

/-- C9 counterexample: with the input node list `[1, 0]` and equal scores, the
stable sort keeps the input order, so the report rows are not tie-broken by
NodeId ascending. -/
theorem C9_counterexample :
    create_node_ranking_report [1, 0] [FP.fin 1, FP.fin 1] [] false
        = some [(1, "", FP.fin 1), (0, "", FP.fin 1)]
      ∧ ¬ List.Pairwise rankingRowOrd [(1, "", FP.fin 1), (0, "", FP.fin 1)] := by
  constructor
  · decide
  · intro h
    rw [List.pairwise_cons] at h
    rcases h.1 (0, "", FP.fin 1) (by simp) with hgt | ⟨-, hlt⟩
    · simp [fpPartialCmp] at hgt
    · omega

/-- C9 witness: an ascending two-node input on which the amended claim
produces a sorted report. -/
theorem C9_witness :
    (([0, 1] : List ℕ).Pairwise (· < ·)
        ∧ (∀ v ∈ ([0, 1] : List ℕ), v < ([FP.fin 2, FP.fin 1] : List FP).length)
        ∧ (∀ s ∈ ([FP.fin 2, FP.fin 1] : List FP), s ≠ FP.nan))
      ∧ ∃ r, create_node_ranking_report [0, 1] [FP.fin 2, FP.fin 1] [] false = some r
          ∧ r.Pairwise rankingRowOrd :=
  ⟨⟨by decide, by decide, by decide⟩,
    C9_reports_sorted_when_input_ascending.1 [0, 1] [FP.fin 2, FP.fin 1] [] false
      (by decide) (by decide) (by decide)⟩

end FRD
